import Mathlib

set_option maxHeartbeats 1000000

/-!
Verification of the `json-enc` repository's `encryptor.js` module.

The module's own code (Base64 conversion via `atob`/`btoa`, envelope
packing/splitting, key-handle construction, the encrypt/decrypt glue) is
embedded concretely below.  The Web Crypto platform primitives it calls
(`crypto.subtle.deriveKey` with PBKDF2, `crypto.subtle.encrypt`/`decrypt`
with AES-GCM) are not part of the repository; they are modelled as an
abstract `SubtleCrypto` structure whose fields state the contract the
specification relies on.
-/

namespace JsonEnc

/-- The Base64 alphabet used by `window.btoa` and `window.atob` (RFC 4648). -/
def base64Alphabet : List Char :=
  ['A', 'B', 'C', 'D', 'E', 'F', 'G', 'H', 'I', 'J', 'K', 'L', 'M',
   'N', 'O', 'P', 'Q', 'R', 'S', 'T', 'U', 'V', 'W', 'X', 'Y', 'Z',
   'a', 'b', 'c', 'd', 'e', 'f', 'g', 'h', 'i', 'j', 'k', 'l', 'm',
   'n', 'o', 'p', 'q', 'r', 's', 't', 'u', 'v', 'w', 'x', 'y', 'z',
   '0', '1', '2', '3', '4', '5', '6', '7', '8', '9', '+', '/']

/-- Character of the Base64 alphabet at a 6-bit index. -/
def sextetChar (n : Nat) : Char := base64Alphabet.getD n 'A'

/-- Index of a character in the Base64 alphabet, `none` if absent. -/
def charSextet (c : Char) : Option Nat :=
  base64Alphabet.findIdx? (fun a => a == c)

/-- Sextet (6-bit group) stream of a byte list, as produced by `btoa`:
three bytes yield four sextets, trailing one or two bytes yield two or
three sextets with low bits zero-padded. -/
def sextetsOf : List Nat → List Nat
  | a :: b :: c :: rest =>
      a / 4 :: (a % 4 * 16 + b / 16) :: (b % 16 * 4 + c / 64) :: c % 64 :: sextetsOf rest
  | [a, b] => [a / 4, a % 4 * 16 + b / 16, b % 16 * 4]
  | [a] => [a / 4, a % 4 * 16]
  | [] => []

/-- Padding characters `btoa` appends so output length is a multiple of 4. -/
def padOf (bytes : List Nat) : List Char :=
  if bytes.length % 3 = 1 then ['=', '=']
  else if bytes.length % 3 = 2 then ['='] else []

/-- Embedding of the source's `bytesToBase64`: builds a binary string from
the byte values and applies `window.btoa` (standard Base64 with padding). -/
def bytesToBase64 (buffer : List Nat) : List Char :=
  (sextetsOf buffer).map sextetChar ++ padOf buffer

/-- Inverse of `sextetsOf`: reassemble bytes from a sextet stream,
discarding the zero-padding bits of a trailing group. -/
def sextetsToBytes : List Nat → List Nat
  | a :: b :: c :: d :: rest =>
      (a * 4 + b / 16) :: (b % 16 * 16 + c / 4) :: (c % 4 * 64 + d) :: sextetsToBytes rest
  | [a, b, c] => [a * 4 + b / 16, b % 16 * 16 + c / 4]
  | [a, b] => [a * 4 + b / 16]
  | _ => []

/-- Map each character to its sextet value, failing on any character
outside the Base64 alphabet. -/
def charsToSextets : List Char → Option (List Nat)
  | [] => some []
  | c :: rest =>
      match charSextet c, charsToSextets rest with
      | some v, some vs => some (v :: vs)
      | _, _ => none

/-- Strip the trailing `=` padding as `atob` does: only when the input
length is a multiple of 4, and at most two characters. -/
def atobStrip (s : List Char) : List Char :=
  if s.length % 4 = 0 then
    if s.getLast? = some '=' then
      if s.dropLast.getLast? = some '=' then s.dropLast.dropLast else s.dropLast
    else s
  else s

/-- Embedding of the source's `base64ToBytes`: applies `window.atob`
(forgiving Base64 decode: strip padding, reject length ≡ 1 mod 4 and
characters outside the alphabet) and reads the char codes back as bytes.
Returns `none` where `atob` throws `InvalidCharacterError`. -/
def base64ToBytes (s : List Char) : Option (List Nat) :=
  let t := atobStrip s
  if t.length % 4 = 1 then none
  else (charsToSextets t).map sextetsToBytes

/-- Embedding of JavaScript `String.prototype.split(',')`: splits on every
comma; the empty string yields `[""]` and adjacent commas yield empty
fields. -/
def splitComma : List Char → List (List Char)
  | [] => [[]]
  | c :: rest =>
      match splitComma rest with
      | [] => [[c]]
      | h :: t => if c = ',' then [] :: h :: t else (c :: h) :: t

/-- A Unicode scalar value: in range and not a surrogate. -/
abbrev ValidScalar (c : Nat) : Prop := c < 1114112 ∧ (c < 55296 ∨ 57344 ≤ c)

/-- UTF-8 encoding of one code point, as performed by `TextEncoder`. -/
def utf8EncodeChar (c : Nat) : List Nat :=
  if c < 128 then [c]
  else if c < 2048 then [192 + c / 64, 128 + c % 64]
  else if c < 65536 then [224 + c / 4096, 128 + c / 64 % 64, 128 + c % 64]
  else [240 + c / 262144, 128 + c / 4096 % 64, 128 + c / 64 % 64, 128 + c % 64]

/-- UTF-8 encoding of a code-point sequence (`TextEncoder.encode`). -/
def utf8Encode (cps : List Nat) : List Nat := (cps.map utf8EncodeChar).flatten

/-- Result of decoding one UTF-8 sequence at the head of a byte stream,
following the WHATWG decoder used by `TextDecoder`: the code point (U+FFFD
for malformed input) together with the number of bytes consumed (the
failing byte is reconsumed, so on error only the valid part is consumed). -/
def utf8DecodeStep : List Nat → Nat × Nat
  | [] => (65533, 1)
  | b1 :: rest =>
      if b1 < 128 then (b1, 1)
      else if 194 ≤ b1 ∧ b1 ≤ 223 then
        match rest with
        | [] => (65533, 1)
        | b2 :: _ =>
            if 128 ≤ b2 ∧ b2 ≤ 191 then ((b1 - 192) * 64 + (b2 - 128), 2)
            else (65533, 1)
      else if 224 ≤ b1 ∧ b1 ≤ 239 then
        match rest with
        | [] => (65533, 1)
        | b2 :: rest2 =>
            if (if b1 = 224 then 160 else 128) ≤ b2 ∧ b2 ≤ (if b1 = 237 then 159 else 191) then
              match rest2 with
              | [] => (65533, 2)
              | b3 :: _ =>
                  if 128 ≤ b3 ∧ b3 ≤ 191 then
                    ((b1 - 224) * 4096 + (b2 - 128) * 64 + (b3 - 128), 3)
                  else (65533, 2)
            else (65533, 1)
      else if 240 ≤ b1 ∧ b1 ≤ 244 then
        match rest with
        | [] => (65533, 1)
        | b2 :: rest2 =>
            if (if b1 = 240 then 144 else 128) ≤ b2 ∧ b2 ≤ (if b1 = 244 then 143 else 191) then
              match rest2 with
              | [] => (65533, 2)
              | b3 :: rest3 =>
                  if 128 ≤ b3 ∧ b3 ≤ 191 then
                    match rest3 with
                    | [] => (65533, 3)
                    | b4 :: _ =>
                        if 128 ≤ b4 ∧ b4 ≤ 191 then
                          ((b1 - 240) * 262144 + (b2 - 128) * 4096 + (b3 - 128) * 64 + (b4 - 128), 4)
                        else (65533, 3)
                  else (65533, 2)
            else (65533, 1)
      else (65533, 1)

/-- UTF-8 decoding with U+FFFD replacement on malformed input, as performed
by a non-fatal `TextDecoder` (WHATWG decoder; total, never throws). -/
def utf8Decode (l : List Nat) : List Nat :=
  if hl : l = [] then []
  else (utf8DecodeStep l).1 :: utf8Decode (l.drop (max (utf8DecodeStep l).2 1))
termination_by l.length
decreasing_by
  simp only [List.length_drop]
  have : l.length ≠ 0 := fun h0 => hl (List.length_eq_zero.mp h0)
  omega

/-- Exception kinds actually raised on the decrypt path: `window.atob`
throws a DOMException `InvalidCharacterError` on malformed Base64, and
`crypto.subtle.decrypt` rejects with an `OperationError` when AES-GCM
authentication fails. -/
inductive JsError where
  | InvalidCharacterError : JsError
  | OperationError : JsError
deriving DecidableEq

/-- Model of the `CryptoKey` object returned by `crypto.subtle.deriveKey`:
the underlying key material together with the algorithm, extractability
and usage attributes the source requests. -/
structure CryptoKeyH where
  material : List Nat
  algName : String
  algLength : Nat
  extractable : Bool
  usages : List String
deriving DecidableEq

/-- Modelled from the spec: the Web Crypto platform primitives used by the
module — PBKDF2 key derivation and the AES-GCM authenticated cipher — are
not part of this repository, so they are abstracted as functions together
with the contract the specification states for them: PBKDF2 returns
`length / 8` bytes deterministically; AES-GCM decryption with the
encrypting key and nonce recovers the plaintext; decryption under a
different key of the same size fails the tag check (idealised wrong-key
rejection); distinct nonces give distinct ciphertext-plus-tag outputs
(AES is a permutation of counter blocks); outputs are bytes. -/
structure SubtleCrypto where
  pbkdf2 : String → List Nat → List Nat → Nat → Nat → List Nat
  gcmEnc : List Nat → List Nat → List Nat → List Nat
  gcmDec : List Nat → List Nat → List Nat → Option (List Nat)
  pbkdf2_len : ∀ h p s it len, (pbkdf2 h p s it len).length = len / 8
  pbkdf2_lt : ∀ h p s it len, ∀ x ∈ pbkdf2 h p s it len, x < 256
  gcm_enc_lt : ∀ k iv m, (∀ x ∈ k, x < 256) → (∀ x ∈ iv, x < 256) →
    (∀ x ∈ m, x < 256) → ∀ x ∈ gcmEnc k iv m, x < 256
  gcm_correct : ∀ k iv m, iv.length = 12 → gcmDec k iv (gcmEnc k iv m) = some m
  gcm_auth : ∀ k k2 iv m, k.length = k2.length → k ≠ k2 →
    gcmDec k2 iv (gcmEnc k iv m) = none
  gcm_nonce_inj : ∀ k iv1 iv2 m, iv1.length = iv2.length → iv1 ≠ iv2 →
    gcmEnc k iv1 m ≠ gcmEnc k iv2 m

/-- Embedding of the source's `deriveKey`: imports the UTF-8 encoded
password as a PBKDF2 master key, then derives a non-extractable AES-GCM
256-bit key with the UTF-8 encoded salt, 100000 iterations and SHA-256,
usable exactly for encrypt and decrypt. -/
def deriveKey (S : SubtleCrypto) (password salt : List Nat) : CryptoKeyH :=
  { material := S.pbkdf2 "SHA-256" (utf8Encode password) (utf8Encode salt) 100000 256
    algName := "AES-GCM"
    algLength := 256
    extractable := false
    usages := ["encrypt", "decrypt"] }

/-- Embedding of the source's `encrypt`.  The 12 random bytes produced by
`crypto.getRandomValues(new Uint8Array(12))` are passed in explicitly as
`IVBytes` (the random draw made a parameter). -/
def encrypt (S : SubtleCrypto) (text : List Nat) (key : CryptoKeyH)
    (IVBytes : List Nat) : List Char :=
  let textBytes := utf8Encode text
  let cipherBytes := S.gcmEnc key.material IVBytes textBytes
  let IV64 := bytesToBase64 IVBytes
  let ciphertext64 := bytesToBase64 cipherBytes
  ciphertext64 ++ ',' :: IV64

/-- Embedding of the source's `decrypt`.  JavaScript array destructuring
`const [ciphertext64, IV64] = encrypted64.split(',')` takes the first two
fields and ignores the rest; when the split yields a single field, `IV64`
is `undefined`, which `atob` coerces to the nine-character string
`"undefined"`. -/
def decrypt (S : SubtleCrypto) (encrypted64 : List Char) (key : CryptoKeyH) :
    Except JsError (List Nat) :=
  let parts := splitComma encrypted64
  let ciphertext64 := parts.getD 0 []
  let IV64 := parts.getD 1 ("undefined".toList)
  match base64ToBytes ciphertext64 with
  | none => Except.error JsError.InvalidCharacterError
  | some ciphertextBytes =>
      match base64ToBytes IV64 with
      | none => Except.error JsError.InvalidCharacterError
      | some IVBytes =>
          match S.gcmDec key.material IVBytes ciphertextBytes with
          | none => Except.error JsError.OperationError
          | some textBytes => Except.ok (utf8Decode textBytes)

/-- Concrete instance of the platform contract, used to evaluate the
theorems on explicit inputs: a transparent tag-by-construction cipher that
prepends key and nonce to the message, and a derivation function mixing
the byte sums of its inputs.  It is purely illustrative and claims nothing
about real AES-GCM beyond the contract fields. -/
def toySubtle : SubtleCrypto where
  pbkdf2 := fun _ p s _ len =>
    (List.range (len / 8)).map fun i =>
      (p.foldl (· + ·) 0 * 3 + s.foldl (· + ·) 0 * 7 + i) % 256
  gcmEnc := fun k iv m => k ++ iv ++ m
  gcmDec := fun k iv c =>
    if c.take (k.length + iv.length) = k ++ iv then
      some (c.drop (k.length + iv.length))
    else none
  pbkdf2_len := by intro h p s it len; simp
  pbkdf2_lt := by
    intro h p s it len x hx
    simp only [List.mem_map] at hx
    obtain ⟨i, _, rfl⟩ := hx
    omega
  gcm_enc_lt := by
    intro k iv m hk hiv hm x hx
    simp only [List.mem_append] at hx
    rcases hx with (hx | hx) | hx
    · exact hk x hx
    · exact hiv x hx
    · exact hm x hx
  gcm_correct := by
    intro k iv m _
    beta_reduce
    have hl : k.length + iv.length = (k ++ iv).length := (List.length_append k iv).symm
    rw [hl, List.take_left, List.drop_left, if_pos rfl]
  gcm_auth := by
    intro k k2 iv m hlen hne
    beta_reduce
    have hl : k2.length + iv.length = (k ++ iv).length := by
      simp [List.length_append, hlen]
    rw [hl, List.take_left, if_neg]
    intro hcontra
    exact hne (List.append_cancel_right hcontra)
  gcm_nonce_inj := by
    intro k iv1 iv2 m _ hne heq
    exact hne (List.append_cancel_left (List.append_cancel_right heq))

/-! ### Properties of the Base64 codec -/

theorem charSextet_sextetChar : ∀ n, n < 64 → charSextet (sextetChar n) = some n := by
  decide

theorem sextetChar_mem (n : Nat) : sextetChar n ∈ base64Alphabet := by
  unfold sextetChar
  rcases h : base64Alphabet.get? n with _ | c
  · simp [List.getD_eq_getElem?_getD, ← List.get?_eq_getElem?, h]
    decide
  · have hm : c ∈ base64Alphabet := List.get?_mem h
    simp [List.getD_eq_getElem?_getD, ← List.get?_eq_getElem?, h, hm]

theorem sextetChar_ne_pad (n : Nat) : sextetChar n ≠ '=' := by
  have h := sextetChar_mem n
  intro he
  rw [he] at h
  revert h
  decide

theorem sextetChar_ne_comma (n : Nat) : sextetChar n ≠ ',' := by
  have h := sextetChar_mem n
  intro he
  rw [he] at h
  revert h
  decide

theorem sextetsToBytes_sextetsOf (l : List Nat) (h : ∀ x ∈ l, x < 256) :
    sextetsToBytes (sextetsOf l) = l := by
  induction l using sextetsOf.induct with
  | case1 a b c rest ih =>
    have ha : a < 256 := h a (by simp)
    have hb : b < 256 := h b (by simp)
    have hc : c < 256 := h c (by simp)
    simp only [sextetsOf, sextetsToBytes, List.cons.injEq]
    exact ⟨by omega, by omega, by omega, ih (fun x hx => h x (by simp [hx]))⟩
  | case2 a b =>
    have ha : a < 256 := h a (by simp)
    have hb : b < 256 := h b (by simp)
    simp only [sextetsOf, sextetsToBytes, List.cons.injEq]
    exact ⟨by omega, by omega, trivial⟩
  | case3 a =>
    have ha : a < 256 := h a (by simp)
    simp only [sextetsOf, sextetsToBytes, List.cons.injEq]
    exact ⟨by omega, trivial⟩
  | case4 => rfl

theorem sextetsOf_lt (l : List Nat) (h : ∀ x ∈ l, x < 256) :
    ∀ n ∈ sextetsOf l, n < 64 := by
  induction l using sextetsOf.induct with
  | case1 a b c rest ih =>
    have ha : a < 256 := h a (by simp)
    have hb : b < 256 := h b (by simp)
    have hc : c < 256 := h c (by simp)
    intro n hn
    simp only [sextetsOf, List.mem_cons] at hn
    rcases hn with rfl | rfl | rfl | rfl | hn
    · omega
    · omega
    · omega
    · omega
    · exact ih (fun x hx => h x (by simp [hx])) n hn
  | case2 a b =>
    have ha : a < 256 := h a (by simp)
    have hb : b < 256 := h b (by simp)
    intro n hn
    simp only [sextetsOf, List.mem_cons] at hn
    rcases hn with rfl | rfl | rfl | hn
    · omega
    · omega
    · omega
    · simp at hn
  | case3 a =>
    have ha : a < 256 := h a (by simp)
    intro n hn
    simp only [sextetsOf, List.mem_cons] at hn
    rcases hn with rfl | rfl | hn
    · omega
    · omega
    · simp at hn
  | case4 => intro n hn; simp [sextetsOf] at hn

theorem sextetsOf_length_mod (l : List Nat) :
    (sextetsOf l).length % 4 = (if l.length % 3 = 0 then 0 else l.length % 3 + 1) := by
  induction l using sextetsOf.induct with
  | case1 a b c rest ih =>
    simp only [sextetsOf, List.length_cons]
    split <;> split at ih <;> omega
  | case2 a b => simp [sextetsOf]
  | case3 a => simp [sextetsOf]
  | case4 => simp [sextetsOf]

theorem charsToSextets_map (l : List Nat) (h : ∀ n ∈ l, n < 64) :
    charsToSextets (l.map sextetChar) = some l := by
  induction l with
  | nil => rfl
  | cons a t ih =>
    simp only [List.map_cons, charsToSextets]
    rw [charSextet_sextetChar a (h a (by simp)), ih (fun n hn => h n (by simp [hn]))]

theorem atobStrip_bytesToBase64 (b : List Nat) :
    atobStrip (bytesToBase64 b) = (sextetsOf b).map sextetChar := by
  have hmlen : ((sextetsOf b).map sextetChar).length % 4 =
      (if b.length % 3 = 0 then 0 else b.length % 3 + 1) := by
    rw [List.length_map]
    exact sextetsOf_length_mod b
  have hmne : ∀ c ∈ (sextetsOf b).map sextetChar, c ≠ '=' := by
    intro c hc
    simp only [List.mem_map] at hc
    obtain ⟨n, _, rfl⟩ := hc
    exact sextetChar_ne_pad n
  have hlastne : ¬ ((sextetsOf b).map sextetChar).getLast? = some '=' := by
    intro hlast
    refine hmne '=' ?_ rfl
    obtain ⟨hne, heq⟩ := List.mem_getLast?_eq_getLast (Option.mem_def.mpr hlast)
    rw [heq]
    exact List.getLast_mem hne
  unfold bytesToBase64
  by_cases h1 : b.length % 3 = 1
  · have hpad : padOf b = ['=', '='] := by simp [padOf, h1]
    simp only [h1] at hmlen
    norm_num at hmlen
    rw [hpad]
    unfold atobStrip
    rw [show (sextetsOf b).map sextetChar ++ ['=', '='] =
        ((sextetsOf b).map sextetChar ++ ['=']) ++ ['='] by simp]
    rw [if_pos (by simp only [List.length_append, List.length_map,
      List.length_cons, List.length_nil]; omega)]
    rw [List.getLast?_concat, if_pos rfl, List.dropLast_concat, List.getLast?_concat,
      if_pos rfl, List.dropLast_concat]
  · by_cases h2 : b.length % 3 = 2
    · have hpad : padOf b = ['='] := by simp [padOf, h1, h2]
      simp only [h2] at hmlen
      norm_num at hmlen
      rw [hpad]
      unfold atobStrip
      rw [if_pos (by simp only [List.length_append, List.length_map,
        List.length_cons, List.length_nil]; omega)]
      rw [List.getLast?_concat, if_pos rfl, List.dropLast_concat, if_neg hlastne]
    · have h0 : b.length % 3 = 0 := by omega
      have hpad : padOf b = [] := by simp [padOf, h1, h2]
      simp only [h0] at hmlen
      norm_num at hmlen
      rw [hpad, List.append_nil]
      unfold atobStrip
      rw [if_pos (by simp only [List.length_map]; exact hmlen), if_neg hlastne]

theorem base64ToBytes_bytesToBase64 (b : List Nat) (h : ∀ x ∈ b, x < 256) :
    base64ToBytes (bytesToBase64 b) = some b := by
  simp only [base64ToBytes]
  rw [atobStrip_bytesToBase64]
  have hne1 : ((sextetsOf b).map sextetChar).length % 4 ≠ 1 := by
    rw [List.length_map]
    have := sextetsOf_length_mod b
    split at this <;> omega
  rw [if_neg hne1, charsToSextets_map _ (sextetsOf_lt b h)]
  simp [sextetsToBytes_sextetsOf b h]

theorem bytesToBase64_injOn (a b : List Nat) (ha : ∀ x ∈ a, x < 256)
    (hb : ∀ x ∈ b, x < 256) (h : bytesToBase64 a = bytesToBase64 b) : a = b := by
  have h1 := base64ToBytes_bytesToBase64 a ha
  have h2 := base64ToBytes_bytesToBase64 b hb
  rw [h, h2] at h1
  exact (Option.some.inj h1).symm

theorem comma_not_mem_bytesToBase64 (b : List Nat) : ',' ∉ bytesToBase64 b := by
  intro hc
  simp only [bytesToBase64, List.mem_append] at hc
  rcases hc with hc | hc
  · simp only [List.mem_map] at hc
    obtain ⟨n, _, hn⟩ := hc
    exact sextetChar_ne_comma n hn
  · unfold padOf at hc
    split at hc
    · simp at hc
    · split at hc <;> simp at hc

/-! ### Properties of the UTF-8 codec -/

theorem utf8DecodeStep_encodeChar (c : Nat) (h : ValidScalar c) (rest : List Nat) :
    utf8DecodeStep (utf8EncodeChar c ++ rest) = (c, (utf8EncodeChar c).length) := by
  obtain ⟨h1, h2⟩ := h
  unfold utf8EncodeChar
  by_cases hA : c < 128
  · rw [if_pos hA]
    simp only [List.cons_append, List.nil_append, List.length_cons, List.length_nil]
    simp only [utf8DecodeStep]
    rw [if_pos hA]
  · rw [if_neg hA]
    by_cases hB : c < 2048
    · rw [if_pos hB]
      simp only [List.cons_append, List.nil_append, List.length_cons, List.length_nil]
      simp only [utf8DecodeStep]
      rw [if_neg (by omega), if_pos (by omega), if_pos (by omega)]
      simp only [Prod.mk.injEq]
      exact ⟨by omega, by simp⟩
    · rw [if_neg hB]
      by_cases hC : c < 65536
      · rw [if_pos hC]
        simp only [List.cons_append, List.nil_append, List.length_cons, List.length_nil]
        simp only [utf8DecodeStep]
        rw [if_neg (by omega), if_neg (by omega), if_pos (by omega),
          if_pos (by constructor <;> split <;> omega), if_pos (by omega)]
        simp only [Prod.mk.injEq]
        exact ⟨by omega, by simp⟩
      · rw [if_neg hC]
        simp only [List.cons_append, List.nil_append, List.length_cons, List.length_nil]
        simp only [utf8DecodeStep]
        rw [if_neg (by omega), if_neg (by omega), if_neg (by omega), if_pos (by omega),
          if_pos (by constructor <;> split <;> omega), if_pos (by omega), if_pos (by omega)]
        simp only [Prod.mk.injEq]
        exact ⟨by omega, by simp⟩

theorem utf8EncodeChar_length_pos (c : Nat) : 1 ≤ (utf8EncodeChar c).length := by
  unfold utf8EncodeChar
  split
  · simp
  · split
    · simp
    · split <;> simp

theorem utf8Decode_encodeChar_append (c : Nat) (h : ValidScalar c) (r : List Nat) :
    utf8Decode (utf8EncodeChar c ++ r) = c :: utf8Decode r := by
  have hlp := utf8EncodeChar_length_pos c
  have hne : utf8EncodeChar c ++ r ≠ [] := by
    intro hel
    rw [List.append_eq_nil] at hel
    rw [hel.1] at hlp
    simp at hlp
  rw [utf8Decode.eq_def, dif_neg hne, utf8DecodeStep_encodeChar c h r]
  have hmax : max (utf8EncodeChar c).length 1 = (utf8EncodeChar c).length :=
    Nat.max_eq_left hlp
  rw [hmax, List.drop_left]

theorem utf8Decode_utf8Encode (cps : List Nat) (h : ∀ c ∈ cps, ValidScalar c) :
    utf8Decode (utf8Encode cps) = cps := by
  induction cps with
  | nil => rw [utf8Encode]; simp [utf8Decode]
  | cons c t ih =>
    have hstep : utf8Encode (c :: t) = utf8EncodeChar c ++ utf8Encode t := by
      simp [utf8Encode]
    rw [hstep, utf8Decode_encodeChar_append c (h c (by simp)) (utf8Encode t),
      ih (fun x hx => h x (by simp [hx]))]

theorem utf8Encode_lt (cps : List Nat) (h : ∀ c ∈ cps, ValidScalar c) :
    ∀ x ∈ utf8Encode cps, x < 256 := by
  intro x hx
  simp only [utf8Encode, List.mem_flatten] at hx
  obtain ⟨l, hl, hxl⟩ := hx
  simp only [List.mem_map] at hl
  obtain ⟨c, hc, rfl⟩ := hl
  obtain ⟨h1, h2⟩ := h c hc
  unfold utf8EncodeChar at hxl
  split at hxl
  · simp at hxl; omega
  · split at hxl
    · simp at hxl; omega
    · split at hxl <;> simp at hxl <;> omega

/-! ### Properties of the envelope split -/

theorem splitComma_ne_nil (s : List Char) : splitComma s ≠ [] := by
  induction s with
  | nil => simp [splitComma]
  | cons c rest ih =>
    simp only [splitComma]
    split
    · simp
    · split <;> simp

theorem splitComma_no_comma (s : List Char) (h : ',' ∉ s) : splitComma s = [s] := by
  induction s with
  | nil => rfl
  | cons c rest ih =>
    have hc : c ≠ ',' := fun he => h (by simp [he])
    have hrest : ',' ∉ rest := fun he => h (by simp [he])
    simp only [splitComma, ih hrest]
    rw [if_neg hc]

theorem splitComma_append (a r : List Char) (h : ',' ∉ a) :
    splitComma (a ++ ',' :: r) = a :: splitComma r := by
  induction a with
  | nil =>
    rcases hr : splitComma r with _ | ⟨hh, t⟩
    · exact absurd hr (splitComma_ne_nil r)
    · simp only [List.nil_append, splitComma, hr]
      simp
  | cons c a' ih =>
    have hc : c ≠ ',' := fun he => h (by simp [he])
    have ha' : ',' ∉ a' := fun he => h (by simp [he])
    simp only [List.cons_append, splitComma, List.append_eq]
    rw [ih ha']
    simp [hc]

/-! ### Core lemmas about the module functions -/

theorem deriveKey_material_lt (S : SubtleCrypto) (p s : List Nat) :
    ∀ x ∈ (deriveKey S p s).material, x < 256 :=
  S.pbkdf2_lt "SHA-256" (utf8Encode p) (utf8Encode s) 100000 256

theorem deriveKey_material_length (S : SubtleCrypto) (p s : List Nat) :
    (deriveKey S p s).material.length = 32 := by
  have h := S.pbkdf2_len "SHA-256" (utf8Encode p) (utf8Encode s) 100000 256
  simpa using h

theorem splitComma_encrypt (S : SubtleCrypto) (t : List Nat) (key : CryptoKeyH)
    (iv : List Nat) :
    splitComma (encrypt S t key iv) =
      [bytesToBase64 (S.gcmEnc key.material iv (utf8Encode t)), bytesToBase64 iv] := by
  simp only [encrypt]
  rw [splitComma_append _ _ (comma_not_mem_bytesToBase64 _),
    splitComma_no_comma _ (comma_not_mem_bytesToBase64 _)]

theorem decrypt_of_fields (S : SubtleCrypto) (key : CryptoKeyH) (env : List Char)
    (t iv : List Nat)
    (hk : ∀ x ∈ key.material, x < 256) (ht : ∀ c ∈ t, ValidScalar c)
    (hiv12 : iv.length = 12) (hivb : ∀ x ∈ iv, x < 256)
    (h0 : (splitComma env).getD 0 [] =
      bytesToBase64 (S.gcmEnc key.material iv (utf8Encode t)))
    (h1 : (splitComma env).getD 1 ("undefined".toList) = bytesToBase64 iv) :
    decrypt S env key = Except.ok t := by
  simp only [decrypt]
  rw [h0, h1,
    base64ToBytes_bytesToBase64 _ (S.gcm_enc_lt _ _ _ hk hivb (utf8Encode_lt t ht)),
    base64ToBytes_bytesToBase64 iv hivb]
  change (match S.gcmDec key.material iv (S.gcmEnc key.material iv (utf8Encode t)) with
    | none => Except.error JsError.OperationError
    | some textBytes => Except.ok (utf8Decode textBytes)) = Except.ok t
  rw [S.gcm_correct key.material iv (utf8Encode t) hiv12]
  change Except.ok (utf8Decode (utf8Encode t)) = Except.ok t
  rw [utf8Decode_utf8Encode t ht]

/-! ### The claims -/

/-- C1: for every key handle derived by `deriveKey` and every plaintext
(the empty string and multi-byte Unicode text included, via arbitrary lists
of Unicode scalar values), `decrypt (encrypt t k) k` returns exactly `t`.
The fresh random 12-byte nonce drawn inside `encrypt` appears as the
explicit byte-valued parameter `iv`. -/
theorem roundtrip_decrypt_encrypt (S : SubtleCrypto) (p s t iv : List Nat)
    (hiv12 : iv.length = 12) (hivb : ∀ x ∈ iv, x < 256)
    (ht : ∀ c ∈ t, ValidScalar c) :
    decrypt S (encrypt S t (deriveKey S p s) iv) (deriveKey S p s) = Except.ok t := by
  refine decrypt_of_fields S (deriveKey S p s) _ t iv
    (deriveKey_material_lt S p s) ht hiv12 hivb ?_ ?_
  · rw [splitComma_encrypt]
    rfl
  · rw [splitComma_encrypt]
    rfl

/-- C1 witness: evaluation at a multi-byte Unicode plaintext and at the
empty plaintext, under the concrete platform-contract instance. -/
theorem roundtrip_decrypt_encrypt_witness :
    ([0, 1, 2, 3, 4, 5, 6, 7, 8, 9, 10, 11] : List Nat).length = 12 ∧
    decrypt toySubtle
        (encrypt toySubtle [104, 233, 128512] (deriveKey toySubtle [112] [115])
          [0, 1, 2, 3, 4, 5, 6, 7, 8, 9, 10, 11])
        (deriveKey toySubtle [112] [115]) = Except.ok [104, 233, 128512] ∧
    decrypt toySubtle
        (encrypt toySubtle [] (deriveKey toySubtle [112] [115])
          [0, 1, 2, 3, 4, 5, 6, 7, 8, 9, 10, 11])
        (deriveKey toySubtle [112] [115]) = Except.ok [] :=
  ⟨by decide,
    roundtrip_decrypt_encrypt toySubtle [112] [115] [104, 233, 128512]
      [0, 1, 2, 3, 4, 5, 6, 7, 8, 9, 10, 11] (by decide) (by decide) (by decide),
    roundtrip_decrypt_encrypt toySubtle [112] [115] []
      [0, 1, 2, 3, 4, 5, 6, 7, 8, 9, 10, 11] (by decide) (by decide) (by decide)⟩

/-- C4: the Codec decode is the exact left inverse of encode: for every
byte sequence `b` (empty included), `base64ToBytes (bytesToBase64 b)`
recovers `b` exactly. -/
theorem codec_inverse (b : List Nat) (h : ∀ x ∈ b, x < 256) :
    base64ToBytes (bytesToBase64 b) = some b :=
  base64ToBytes_bytesToBase64 b h

/-- C4 witness: evaluation on a concrete byte sequence exercising all
three padding shapes, and on the empty sequence. -/
theorem codec_inverse_witness :
    (∀ x ∈ ([0, 255, 77, 1] : List Nat), x < 256) ∧
    base64ToBytes (bytesToBase64 [0, 255, 77, 1]) = some [0, 255, 77, 1] ∧
    base64ToBytes (bytesToBase64 []) = some [] :=
  ⟨by decide, codec_inverse [0, 255, 77, 1] (by decide), codec_inverse [] (by decide)⟩

/-- C9: the Base64 alphabet (and the `=` padding) excludes the comma
delimiter, so no encoded field ever contains it; consequently the envelope
built by `encrypt` splits on the comma into exactly its two encoded
fields. -/
theorem delimiter_not_in_fields :
    ∀ (bytes : List Nat) (S : SubtleCrypto) (t : List Nat) (key : CryptoKeyH)
      (iv : List Nat),
      ',' ∉ bytesToBase64 bytes ∧
      splitComma (encrypt S t key iv) =
        [bytesToBase64 (S.gcmEnc key.material iv (utf8Encode t)), bytesToBase64 iv] :=
  fun bytes S t key iv =>
    ⟨comma_not_mem_bytesToBase64 bytes, splitComma_encrypt S t key iv⟩

/-- C2: decrypting under a key whose derived material differs from the
encrypting key's fails with the authentication-failure error
(`OperationError`, the rejection `crypto.subtle.decrypt` raises on a tag
mismatch), and that error is a different value from the malformed-input
error (`InvalidCharacterError`).  Distinct (password, salt) pairs are
assumed to yield distinct key material, which the idealised key-derivation
contract guarantees except with negligible probability. -/
theorem wrong_key_auth_failure (S : SubtleCrypto) (p1 s1 p2 s2 t iv : List Nat)
    (hiv12 : iv.length = 12) (hivb : ∀ x ∈ iv, x < 256)
    (ht : ∀ c ∈ t, ValidScalar c)
    (hm : (deriveKey S p1 s1).material ≠ (deriveKey S p2 s2).material) :
    decrypt S (encrypt S t (deriveKey S p1 s1) iv) (deriveKey S p2 s2) =
      Except.error JsError.OperationError ∧
    JsError.OperationError ≠ JsError.InvalidCharacterError := by
  refine ⟨?_, by decide⟩
  simp only [decrypt]
  rw [splitComma_encrypt]
  simp only [List.getD_cons_zero, List.getD_cons_succ]
  rw [base64ToBytes_bytesToBase64 _
      (S.gcm_enc_lt _ _ _ (deriveKey_material_lt S p1 s1) hivb (utf8Encode_lt t ht)),
    base64ToBytes_bytesToBase64 iv hivb]
  change (match S.gcmDec (deriveKey S p2 s2).material iv
      (S.gcmEnc (deriveKey S p1 s1).material iv (utf8Encode t)) with
    | none => Except.error JsError.OperationError
    | some textBytes => Except.ok (utf8Decode textBytes)) =
      Except.error JsError.OperationError
  rw [S.gcm_auth (deriveKey S p1 s1).material (deriveKey S p2 s2).material iv
    (utf8Encode t)
    (by rw [deriveKey_material_length, deriveKey_material_length]) hm]

/-- C2 witness: two concrete derivations with different key material;
cross-decryption yields the authentication error. -/
theorem wrong_key_auth_failure_witness :
    (deriveKey toySubtle [112] [115]).material ≠
      (deriveKey toySubtle [113] [115]).material ∧
    (decrypt toySubtle
        (encrypt toySubtle [104] (deriveKey toySubtle [112] [115])
          [0, 1, 2, 3, 4, 5, 6, 7, 8, 9, 10, 11])
        (deriveKey toySubtle [113] [115]) = Except.error JsError.OperationError ∧
     JsError.OperationError ≠ JsError.InvalidCharacterError) :=
  ⟨by decide,
    wrong_key_auth_failure toySubtle [112] [115] [113] [115] [104]
      [0, 1, 2, 3, 4, 5, 6, 7, 8, 9, 10, 11]
      (by decide) (by decide) (by decide) (by decide)⟩

/-- C3 counterexample: an envelope whose comma split yields three fields
(so not exactly two) is not rejected at all — `decrypt` succeeds on it,
because the source destructures only the first two fields of the split and
never checks the field count (there is no `MalformedEnvelope` error in the
code). -/
theorem decrypt_extra_fields_cx :
    (splitComma (encrypt toySubtle [104] (deriveKey toySubtle [112] [115])
        [0, 1, 2, 3, 4, 5, 6, 7, 8, 9, 10, 11] ++ ',' :: ['A', 'A', 'A', 'A'])).length
      = 3 ∧
    decrypt toySubtle
        (encrypt toySubtle [104] (deriveKey toySubtle [112] [115])
          [0, 1, 2, 3, 4, 5, 6, 7, 8, 9, 10, 11] ++ ',' :: ['A', 'A', 'A', 'A'])
        (deriveKey toySubtle [112] [115]) = Except.ok [104] :=
  ⟨by decide,
    decrypt_of_fields toySubtle (deriveKey toySubtle [112] [115]) _ [104]
      [0, 1, 2, 3, 4, 5, 6, 7, 8, 9, 10, 11]
      (by decide) (by decide) (by decide) (by decide) (by decide) (by decide)⟩

/-- C3 amended: when either of the first two comma-split fields of the
envelope fails Base64 decoding — in particular when the envelope has no
comma at all, in which case the second field is the `undefined` coercion
`"undefined"`, which `atob` rejects — `decrypt` fails with the decode
error `InvalidCharacterError` (the code raises no distinct
`MalformedEnvelope`); it does not crash and returns no silent wrong
output.  Envelopes with more than two fields are not rejected (see the
counterexample). -/
theorem decrypt_malformed_invalid_character (S : SubtleCrypto) (env : List Char)
    (key : CryptoKeyH)
    (h : base64ToBytes ((splitComma env).getD 0 []) = none ∨
         base64ToBytes ((splitComma env).getD 1 ("undefined".toList)) = none) :
    decrypt S env key = Except.error JsError.InvalidCharacterError := by
  simp only [decrypt]
  rcases hc : base64ToBytes ((splitComma env).getD 0 []) with _ | ct
  · rfl
  · rcases h with h | h
    · rw [h] at hc
      simp at hc
    · change (match base64ToBytes ((splitComma env).getD 1 ("undefined".toList)) with
        | none => Except.error JsError.InvalidCharacterError
        | some IVBytes =>
            match S.gcmDec key.material IVBytes ct with
            | none => Except.error JsError.OperationError
            | some textBytes => Except.ok (utf8Decode textBytes)) =
          Except.error JsError.InvalidCharacterError
      rw [h]

/-- C3 amended witness: a comma-free envelope text; its implicit second
field is the coerced string `"undefined"`, whose length is ≡ 1 mod 4, so
`atob` rejects it. -/
theorem decrypt_malformed_invalid_character_witness :
    (base64ToBytes ((splitComma ['h', 'e', 'l', 'l', 'o']).getD 0 []) = none ∨
     base64ToBytes ((splitComma ['h', 'e', 'l', 'l', 'o']).getD 1
        ("undefined".toList)) = none) ∧
    decrypt toySubtle ['h', 'e', 'l', 'l', 'o'] (deriveKey toySubtle [112] [115]) =
      Except.error JsError.InvalidCharacterError :=
  ⟨by decide,
    decrypt_malformed_invalid_character toySubtle ['h', 'e', 'l', 'l', 'o']
      (deriveKey toySubtle [112] [115]) (by decide)⟩

/-- C5: `deriveKey` requests PBKDF2 with SHA-256, exactly 100000
iterations and a 256-bit output (32 bytes of key material), and the
returned handle is non-extractable, scoped to exactly the two usages
encrypt and decrypt, under AES-GCM with a 256-bit key. -/
theorem deriveKey_parameters (S : SubtleCrypto) (p s : List Nat) :
    (deriveKey S p s).material =
      S.pbkdf2 "SHA-256" (utf8Encode p) (utf8Encode s) 100000 256 ∧
    (deriveKey S p s).material.length = 32 ∧
    (deriveKey S p s).extractable = false ∧
    (deriveKey S p s).usages = ["encrypt", "decrypt"] ∧
    (deriveKey S p s).algName = "AES-GCM" ∧
    (deriveKey S p s).algLength = 256 :=
  ⟨rfl, deriveKey_material_length S p s, rfl, rfl, rfl, rfl⟩

/-- C6: two encryptions of the same plaintext under the same key whose
12-byte nonce draws differ produce envelopes with different nonce fields
and different ciphertext fields.  (That two independent uniform draws
differ holds except with probability 2 to the power minus 96 and is not
expressible in this deterministic embedding; it enters as the hypothesis
`hne`.) -/
theorem nonce_distinct_envelopes (S : SubtleCrypto) (t : List Nat)
    (key : CryptoKeyH) (iv1 iv2 : List Nat)
    (hk : ∀ x ∈ key.material, x < 256) (ht : ∀ c ∈ t, ValidScalar c)
    (h1 : iv1.length = 12) (h2 : iv2.length = 12)
    (hb1 : ∀ x ∈ iv1, x < 256) (hb2 : ∀ x ∈ iv2, x < 256)
    (hne : iv1 ≠ iv2) :
    (splitComma (encrypt S t key iv1)).getD 1 [] ≠
      (splitComma (encrypt S t key iv2)).getD 1 [] ∧
    (splitComma (encrypt S t key iv1)).getD 0 [] ≠
      (splitComma (encrypt S t key iv2)).getD 0 [] := by
  rw [splitComma_encrypt, splitComma_encrypt]
  simp only [List.getD_cons_zero, List.getD_cons_succ]
  constructor
  · intro he
    exact hne (bytesToBase64_injOn iv1 iv2 hb1 hb2 he)
  · intro he
    have henc := bytesToBase64_injOn _ _
      (S.gcm_enc_lt _ _ _ hk hb1 (utf8Encode_lt t ht))
      (S.gcm_enc_lt _ _ _ hk hb2 (utf8Encode_lt t ht)) he
    exact S.gcm_nonce_inj key.material iv1 iv2 (utf8Encode t) (by omega) hne henc

/-- C6 witness: two concrete distinct nonces give different envelope
fields. -/
theorem nonce_distinct_envelopes_witness :
    ([0, 1, 2, 3, 4, 5, 6, 7, 8, 9, 10, 11] : List Nat) ≠
      [11, 10, 9, 8, 7, 6, 5, 4, 3, 2, 1, 0] ∧
    ((splitComma (encrypt toySubtle [104] (deriveKey toySubtle [112] [115])
        [0, 1, 2, 3, 4, 5, 6, 7, 8, 9, 10, 11])).getD 1 [] ≠
      (splitComma (encrypt toySubtle [104] (deriveKey toySubtle [112] [115])
        [11, 10, 9, 8, 7, 6, 5, 4, 3, 2, 1, 0])).getD 1 [] ∧
     (splitComma (encrypt toySubtle [104] (deriveKey toySubtle [112] [115])
        [0, 1, 2, 3, 4, 5, 6, 7, 8, 9, 10, 11])).getD 0 [] ≠
      (splitComma (encrypt toySubtle [104] (deriveKey toySubtle [112] [115])
        [11, 10, 9, 8, 7, 6, 5, 4, 3, 2, 1, 0])).getD 0 []) :=
  ⟨by decide,
    nonce_distinct_envelopes toySubtle [104] (deriveKey toySubtle [112] [115])
      [0, 1, 2, 3, 4, 5, 6, 7, 8, 9, 10, 11] [11, 10, 9, 8, 7, 6, 5, 4, 3, 2, 1, 0]
      (by decide) (by decide) (by decide) (by decide) (by decide) (by decide)
      (by decide)⟩

/-- C7: the envelope returned by `encrypt` is the Base64
ciphertext-plus-tag, a single comma, then the Base64 nonce, and its nonce
field decodes back to exactly the 12 input nonce bytes. -/
theorem envelope_format (S : SubtleCrypto) (t : List Nat) (key : CryptoKeyH)
    (iv : List Nat) (hiv12 : iv.length = 12) (hivb : ∀ x ∈ iv, x < 256) :
    encrypt S t key iv =
      bytesToBase64 (S.gcmEnc key.material iv (utf8Encode t)) ++
        ',' :: bytesToBase64 iv ∧
    base64ToBytes ((splitComma (encrypt S t key iv)).getD 1 []) = some iv ∧
    iv.length = 12 := by
  refine ⟨rfl, ?_, hiv12⟩
  rw [splitComma_encrypt]
  simp only [List.getD_cons_zero, List.getD_cons_succ]
  exact base64ToBytes_bytesToBase64 iv hivb

/-- C7 witness: concrete envelope format and nonce-field decode. -/
theorem envelope_format_witness :
    ([0, 1, 2, 3, 4, 5, 6, 7, 8, 9, 10, 11] : List Nat).length = 12 ∧
    (encrypt toySubtle [104] (deriveKey toySubtle [112] [115])
        [0, 1, 2, 3, 4, 5, 6, 7, 8, 9, 10, 11] =
      bytesToBase64 (toySubtle.gcmEnc (deriveKey toySubtle [112] [115]).material
          [0, 1, 2, 3, 4, 5, 6, 7, 8, 9, 10, 11] (utf8Encode [104])) ++
        ',' :: bytesToBase64 [0, 1, 2, 3, 4, 5, 6, 7, 8, 9, 10, 11] ∧
     base64ToBytes ((splitComma (encrypt toySubtle [104]
          (deriveKey toySubtle [112] [115])
          [0, 1, 2, 3, 4, 5, 6, 7, 8, 9, 10, 11])).getD 1 []) =
        some [0, 1, 2, 3, 4, 5, 6, 7, 8, 9, 10, 11] ∧
     ([0, 1, 2, 3, 4, 5, 6, 7, 8, 9, 10, 11] : List Nat).length = 12) :=
  ⟨by decide,
    envelope_format toySubtle [104] (deriveKey toySubtle [112] [115])
      [0, 1, 2, 3, 4, 5, 6, 7, 8, 9, 10, 11] (by decide) (by decide)⟩

/-- C8: key derivation is a deterministic function of password and salt:
any two handles obtained by deriving the same (password, salt) pair carry
identical key material, and an envelope encrypted under one decrypts to
the original plaintext under the other. -/
theorem derivation_deterministic (S : SubtleCrypto) (p s t iv : List Nat)
    (k1 k2 : CryptoKeyH) (hk1 : k1 = deriveKey S p s) (hk2 : k2 = deriveKey S p s)
    (hiv12 : iv.length = 12) (hivb : ∀ x ∈ iv, x < 256)
    (ht : ∀ c ∈ t, ValidScalar c) :
    k1.material = k2.material ∧
    decrypt S (encrypt S t k1 iv) k2 = Except.ok t := by
  subst hk1
  subst hk2
  refine ⟨rfl, ?_⟩
  refine decrypt_of_fields S _ _ t iv (deriveKey_material_lt S p s) ht hiv12 hivb ?_ ?_
  · rw [splitComma_encrypt]
    rfl
  · rw [splitComma_encrypt]
    rfl

/-- C8 witness: two (equal) concrete derivations, cross round trip. -/
theorem derivation_deterministic_witness :
    deriveKey toySubtle [112] [115] = deriveKey toySubtle [112] [115] ∧
    ((deriveKey toySubtle [112] [115]).material =
      (deriveKey toySubtle [112] [115]).material ∧
     decrypt toySubtle
        (encrypt toySubtle [104] (deriveKey toySubtle [112] [115])
          [0, 1, 2, 3, 4, 5, 6, 7, 8, 9, 10, 11])
        (deriveKey toySubtle [112] [115]) = Except.ok [104]) :=
  ⟨rfl,
    derivation_deterministic toySubtle [112] [115] [104]
      [0, 1, 2, 3, 4, 5, 6, 7, 8, 9, 10, 11] _ _ rfl rfl
      (by decide) (by decide) (by decide)⟩

/-- C10: appending a comma and any extra text to a valid envelope does not
affect decryption — `decrypt` splits on every comma but destructures only
the first two fields, so trailing fields are silently ignored and the
original plaintext is still returned. -/
theorem trailing_fields_ignored (S : SubtleCrypto) (p s t iv : List Nat)
    (extra : List Char) (hiv12 : iv.length = 12) (hivb : ∀ x ∈ iv, x < 256)
    (ht : ∀ c ∈ t, ValidScalar c) :
    decrypt S (encrypt S t (deriveKey S p s) iv ++ ',' :: extra)
      (deriveKey S p s) = Except.ok t := by
  have hsp : splitComma (encrypt S t (deriveKey S p s) iv ++ ',' :: extra) =
      bytesToBase64 (S.gcmEnc (deriveKey S p s).material iv (utf8Encode t)) ::
        bytesToBase64 iv :: splitComma extra := by
    have he : encrypt S t (deriveKey S p s) iv ++ ',' :: extra =
        bytesToBase64 (S.gcmEnc (deriveKey S p s).material iv (utf8Encode t)) ++
          ',' :: (bytesToBase64 iv ++ ',' :: extra) := by
      simp only [encrypt]
      simp [List.append_assoc]
    rw [he, splitComma_append _ _ (comma_not_mem_bytesToBase64 _),
      splitComma_append _ _ (comma_not_mem_bytesToBase64 _)]
  refine decrypt_of_fields S _ _ t iv (deriveKey_material_lt S p s) ht hiv12 hivb ?_ ?_
  · rw [hsp]
    rfl
  · rw [hsp]
    rfl

/-- C10 witness: a trailing field that is not even Base64 is ignored. -/
theorem trailing_fields_ignored_witness :
    ([0, 1, 2, 3, 4, 5, 6, 7, 8, 9, 10, 11] : List Nat).length = 12 ∧
    decrypt toySubtle
        (encrypt toySubtle [104] (deriveKey toySubtle [112] [115])
          [0, 1, 2, 3, 4, 5, 6, 7, 8, 9, 10, 11] ++ ',' :: ['x'])
        (deriveKey toySubtle [112] [115]) = Except.ok [104] :=
  ⟨by decide,
    trailing_fields_ignored toySubtle [112] [115] [104]
      [0, 1, 2, 3, 4, 5, 6, 7, 8, 9, 10, 11] ['x']
      (by decide) (by decide) (by decide)⟩

end JsonEnc
